import Mathlib

/-!
Verification of the cratetorrent peer-wire codec, vectored I/O view, piece
picker, disk write loop and tracker compact-peer decoding, via a shallow
embedding of the Rust sources into Lean.

Bytes are modelled as `Nat` (values `< 256` on real inputs); `usize` is taken
to be 64 bits wide, with saturating operations modelled explicitly.
-/

/-! ## Byte-level helpers (the `bytes` crate's `put_u32`/`get_u32` etc.) -/

/-- `put_u32` big-endian byte encoding of a 32-bit value.  Each byte is reduced
mod 256, so the function agrees with `as u32` truncation for arguments
`≥ 2^32`. -/
def u32Bytes (n : Nat) : List Nat :=
  [n / 2 ^ 24 % 256, n / 2 ^ 16 % 256, n / 2 ^ 8 % 256, n % 256]

/-- Big-endian `u32` read of the first four bytes of a buffer (the cursor peek
`tmp.get_u32()` in `PeerCodec::decode`). -/
def readU32 (b : List Nat) : Nat :=
  b.getD 0 0 * 2 ^ 24 + b.getD 1 0 * 2 ^ 16 + b.getD 2 0 * 2 ^ 8 + b.getD 3 0

/-- `Buf::get_u8`: `none` models the panic on an exhausted buffer. -/
def getU8 : List Nat → Option (Nat × List Nat)
  | [] => none
  | x :: rest => some (x, rest)

/-- `Buf::get_u32` (big-endian): `none` models the panic when fewer than four
bytes remain. -/
def getU32 (b : List Nat) : Option (Nat × List Nat) :=
  if 4 ≤ b.length then some (readU32 b, b.drop 4) else none

/-- `Buf::copy_to_slice` into a buffer of length `n`: `none` models the panic
when fewer than `n` bytes remain. -/
def copyToSlice (n : Nat) (b : List Nat) : Option (List Nat × List Nat) :=
  if n ≤ b.length then some (b.take n, b.drop n) else none

/-! ## The `Bitfield` type: `BitVec<usize, Msb0>` with 64-bit `usize`

`piece_picker.rs` defines `pub(crate) type Bitfield = BitVec<usize, Msb0>`.
A bitvec of length `L` is stored in `ceil(L/64)` words; bit `j` of the vector
is bit `63 - (j mod 64)` of word `j / 64`. -/

/-- One storage word holding `bits` (`bits.length ≤ 64`), MSB-first. -/
def wordOfBitsMsb0 (bits : List Bool) : Nat :=
  (bits.foldl (fun acc b => 2 * acc + (if b then 1 else 0)) 0) * 2 ^ (64 - bits.length)

/-- Chunk a bit list into groups of 64, with the list length as fuel (each
step consumes at least one element, so the fuel suffices). -/
def chunks64Aux : Nat → List Bool → List (List Bool)
  | 0, _ => []
  | _, [] => []
  | fuel + 1, l => l.take 64 :: chunks64Aux fuel (l.drop 64)

/-- `BitVec::as_raw_slice`: the underlying storage words of the bitvec. -/
def asRawSlice (bf : List Bool) : List Nat :=
  (chunks64Aux bf.length bf).map wordOfBitsMsb0

/-- `BitVec::from_vec`: each `usize` element contributes 64 bits, MSB-first. -/
def bitfieldFromVec (elems : List Nat) : List Bool :=
  elems.flatMap (fun w => (List.range 64).map (fun j => w.testBit (63 - j)))

/-! ## Peer-wire messages (`src/cratetorrent/src/peer/codec.rs`) -/

/-- `BlockInfo { piece_index: usize, offset: u32, len: u32 }` (fields as used
by the codec; the defining module is not under `src/`). -/
structure BlockInfo where
  piece_index : Nat
  offset : Nat
  len : Nat
deriving DecidableEq, Repr

/-- The `Message` enum of `peer/codec.rs`. -/
inductive Message where
  | KeepAlive
  | Bitfield (bf : List Bool)
  | Choke
  | Unchoke
  | Interested
  | NotInterested
  | Have (piece_index : Nat)
  | Request (info : BlockInfo)
  | Block (piece_index : Nat) (offset : Nat) (data : List Nat)
  | Cancel (info : BlockInfo)
deriving DecidableEq, Repr

/-- `BlockInfo::encode`: `piece_index.try_into::<u32>()` fails for values
`≥ 2^32`, modelled by `Except.error`. -/
def encodeBlockInfo (info : BlockInfo) : Except Unit (List Nat) :=
  if info.piece_index < 2 ^ 32 then
    .ok (u32Bytes info.piece_index ++ u32Bytes info.offset ++ u32Bytes info.len)
  else .error ()

/-- `PeerCodec::encode`.  The Bitfield arm writes a `1 + len/8` length prefix
but emits one byte per 64-bit storage word (`as_raw_slice().iter().map(|&w| w
as u8)`), exactly as the source does. -/
def peerEncode : Message → Except Unit (List Nat)
  | .KeepAlive => .ok (u32Bytes 0)
  | .Bitfield bf =>
      let byte_len := bf.length / 8
      .ok (u32Bytes (1 + byte_len) ++ [5] ++ (asRawSlice bf).map (· % 256))
  | .Choke => .ok (u32Bytes 1 ++ [0])
  | .Unchoke => .ok (u32Bytes 1 ++ [1])
  | .Interested => .ok (u32Bytes 1 ++ [2])
  | .NotInterested => .ok (u32Bytes 1 ++ [3])
  | .Have pi =>
      if pi < 2 ^ 32 then .ok (u32Bytes (1 + 4) ++ [4] ++ u32Bytes pi)
      else .error ()
  | .Request info => (encodeBlockInfo info).map (fun bs => u32Bytes (1 + 3 * 4) ++ [6] ++ bs)
  | .Block pi off data =>
      if pi < 2 ^ 32 then
        .ok (u32Bytes (1 + 2 * 4 + data.length) ++ [7] ++ u32Bytes pi ++ u32Bytes off ++ data)
      else .error ()
  | .Cancel info => (encodeBlockInfo info).map (fun bs => u32Bytes (1 + 3 * 4) ++ [8] ++ bs)

/-- Outcome of a framed decode step: `incomplete` is `Ok(None)`, `ok` is
`Ok(Some(msg))` together with the bytes left in the buffer, `ioError` is
`Err(..)`, and `panicked` models a Rust panic (buffer over-read or `usize`
underflow). -/
inductive DecodeResult (α : Type) where
  | incomplete : DecodeResult α
  | ok (val : α) (rest : List Nat) : DecodeResult α
  | ioError : DecodeResult α
  | panicked : DecodeResult α
deriving DecidableEq, Repr

/-- The `MessageId::Have` arm of `PeerCodec::decode`. -/
def decodeHave (b1 : List Nat) : DecodeResult Message :=
  match getU32 b1 with
  | none => .panicked
  | some (idx, b2) => .ok (.Have idx) b2

/-- The `MessageId::Bitfield` arm of `PeerCodec::decode`: reads
`msg_len - 1` raw bytes and rebuilds the bitvec with `Bitfield::from_vec`. -/
def decodeBitfield (msg_len : Nat) (b1 : List Nat) : DecodeResult Message :=
  match copyToSlice (msg_len - 1) b1 with
  | none => .panicked
  | some (raw, b2) => .ok (.Bitfield (bitfieldFromVec raw)) b2

/-- The `MessageId::Request` arm of `PeerCodec::decode`. -/
def decodeRequest (b1 : List Nat) : DecodeResult Message :=
  match getU32 b1 with
  | none => .panicked
  | some (pi, b2) =>
    match getU32 b2 with
    | none => .panicked
    | some (off, b3) =>
      match getU32 b3 with
      | none => .panicked
      | some (ln, b4) => .ok (.Request ⟨pi, off, ln⟩) b4

/-- The `MessageId::Block` arm of `PeerCodec::decode`: after the two
`get_u32`s it computes `data_len = msg_len - 1 - 8` on `usize`, which
underflows (panics) for `msg_len < 9`. -/
def decodeBlock (msg_len : Nat) (b1 : List Nat) : DecodeResult Message :=
  match getU32 b1 with
  | none => .panicked
  | some (pi, b2) =>
    match getU32 b2 with
    | none => .panicked
    | some (off, b3) =>
      if msg_len < 9 then .panicked
      else
        match copyToSlice (msg_len - 1 - 8) b3 with
        | none => .panicked
        | some (data, b4) => .ok (.Block pi off data) b4

/-- The `MessageId::Cancel` arm of `PeerCodec::decode`. -/
def decodeCancel (b1 : List Nat) : DecodeResult Message :=
  match getU32 b1 with
  | none => .panicked
  | some (pi, b2) =>
    match getU32 b2 with
    | none => .panicked
    | some (off, b3) =>
      match getU32 b3 with
      | none => .panicked
      | some (ln, b4) => .ok (.Cancel ⟨pi, off, ln⟩) b4

/-- Dispatch on the message-ID byte (`MessageId::try_from` followed by the
`match id`): IDs other than 0..8 are a hard `Err`. -/
def decodeBody (msg_len idByte : Nat) (b1 : List Nat) : DecodeResult Message :=
  if idByte = 0 then .ok .Choke b1
  else if idByte = 1 then .ok .Unchoke b1
  else if idByte = 2 then .ok .Interested b1
  else if idByte = 3 then .ok .NotInterested b1
  else if idByte = 4 then decodeHave b1
  else if idByte = 5 then decodeBitfield msg_len b1
  else if idByte = 6 then decodeRequest b1
  else if idByte = 7 then decodeBlock msg_len b1
  else if idByte = 8 then decodeCancel b1
  else .ioError

/-- `PeerCodec::decode`: peek the big-endian `u32` length prefix `msg_len`;
with fewer than `4 + msg_len` bytes buffered return `Ok(None)`; a zero
`msg_len` is `KeepAlive`; otherwise consume the ID byte and dispatch. -/
def peerDecode (buf : List Nat) : DecodeResult Message :=
  if buf.length < 4 then .incomplete
  else if buf.length < 4 + readU32 buf then .incomplete
  else if readU32 buf = 0 then .ok .KeepAlive (buf.drop 4)
  else
    match getU8 (buf.drop 4) with
    | none => .panicked
    | some (idByte, b1) => decodeBody (readU32 buf) idByte b1

/-! ## The handshake codec -/

/-- The `Handshake` struct; the array fields are byte lists of lengths
19, 8, 20 and 20. -/
structure Handshake where
  prot : List Nat
  reserved : List Nat
  info_hash : List Nat
  peer_id : List Nat
deriving DecidableEq, Repr

/-- `HandshakeCodec::encode`. -/
def hsEncode (h : Handshake) : List Nat :=
  [h.prot.length % 256] ++ h.prot ++ h.reserved ++ h.info_hash ++ h.peer_id

/-- `HandshakeCodec::decode`: peeks the protocol-length byte, rejects values
other than 19, waits for all 68 bytes, then reads the four fields without any
further validation. -/
def hsDecode (buf : List Nat) : DecodeResult Handshake :=
  if buf.isEmpty then .incomplete
  else if buf.headD 0 ≠ 19 then .ioError
  else if buf.length < 1 + 19 + 8 + 20 + 20 then .incomplete
  else
    let b := buf.drop 1
    .ok ⟨b.take 19, (b.drop 19).take 8, (b.drop 27).take 20, (b.drop 47).take 20⟩
      (buf.drop 68)

/-! ## Claims C1 and C9: concrete codec evaluations -/

/-- Claim C1: the codec round-trip `decode (encode m) = m` FAILS on the code
for a non-empty `Bitfield`.  Encoding the 8-bit all-ones bitfield writes the
low byte of its single 64-bit storage word (in which the 8 bits sit at the
top, MSB-first), i.e. the byte `0`; decoding yields the 64-bit all-zero
bitfield, not the original message. -/
theorem bitfield_roundtrip_broken :
    peerEncode (Message.Bitfield (List.replicate 8 true)) = .ok [0, 0, 0, 2, 5, 0] ∧
    peerDecode [0, 0, 0, 2, 5, 0] = .ok (Message.Bitfield (List.replicate 64 false)) [] ∧
    Message.Bitfield (List.replicate 64 false) ≠ Message.Bitfield (List.replicate 8 true) := by
  refine ⟨rfl, by decide, by decide⟩

/-- Claim C9: a fully buffered frame with length prefix 1 and first payload
byte 7 (Block) drives `PeerCodec::decode` into the `usize` underflow
`data_len = msg_len - 1 - 8` (the eight extra buffered bytes feed the two
`get_u32` calls first), so decoding panics instead of returning `Ok` or
`Err`. -/
theorem block_length_underflow_panics :
    readU32 [0, 0, 0, 1, 7, 0, 0, 0, 0, 0, 0, 0, 0] = 1 ∧
    (1 ≤ 1 ∧ 1 ≤ 8) ∧
    [0, 0, 0, 1, 7, 0, 0, 0, 0, 0, 0, 0, 0].getD 4 0 = 7 ∧
    4 + 1 ≤ [0, 0, 0, 1, 7, 0, 0, 0, 0, 0, 0, 0, 0].length ∧
    peerDecode [0, 0, 0, 1, 7, 0, 0, 0, 0, 0, 0, 0, 0] = .panicked := by
  refine ⟨by decide, by decide, by decide, by decide, by decide⟩

/-! ## Claims C5 and C6: decoder framing -/

/-- Payload bytes actually consumed by `PeerCodec::decode` for a decoded
message, where `L` is the frame's length prefix: the decoder trusts `L` only
for `KeepAlive`, `Bitfield` and `Block`; for the other types it reads the
type's fixed fields regardless of `L`. -/
def consumedLen (m : Message) (L : Nat) : Nat :=
  match m with
  | .KeepAlive => 0
  | .Choke | .Unchoke | .Interested | .NotInterested => 1
  | .Have _ => 5
  | .Request _ => 13
  | .Cancel _ => 13
  | .Bitfield _ => L
  | .Block _ _ _ => L

theorem getU8_some {b : List Nat} {x : Nat} {rest : List Nat}
    (h : getU8 b = some (x, rest)) : b.length = rest.length + 1 := by
  cases b with
  | nil => simp [getU8] at h
  | cons y ys => simp [getU8] at h; simp [h.2.symm]

theorem getU32_some {b : List Nat} {v : Nat} {rest : List Nat}
    (h : getU32 b = some (v, rest)) : 4 ≤ b.length ∧ b.length = rest.length + 4 := by
  unfold getU32 at h
  split at h
  · next hle =>
      injection h with h'
      injection h' with h1 h2
      subst h2
      refine ⟨hle, ?_⟩
      rw [List.length_drop]
      omega
  · exact absurd h (by simp)

theorem copyToSlice_some {n : Nat} {b : List Nat} {d rest : List Nat}
    (h : copyToSlice n b = some (d, rest)) : n ≤ b.length ∧ b.length = rest.length + n := by
  unfold copyToSlice at h
  split at h
  · next hle =>
      injection h with h'
      injection h' with h1 h2
      subst h2
      refine ⟨hle, ?_⟩
      rw [List.length_drop]
      omega
  · exact absurd h (by simp)

/-- Shared helper: with fewer than `4 + length-prefix` bytes buffered, the
decoder reports an incomplete frame. -/
theorem peerDecode_incomplete_of_short (buf : List Nat)
    (h : buf.length < 4 + readU32 buf) : peerDecode buf = .incomplete := by
  by_cases h4 : buf.length < 4
  · unfold peerDecode; rw [if_pos h4]
  · unfold peerDecode; rw [if_neg h4, if_pos h]

theorem decodeHave_ok {b1 : List Nat} {m : Message} {rest : List Nat}
    (h : decodeHave b1 = .ok m rest) :
    (∃ idx, m = .Have idx) ∧ b1.length = rest.length + 4 := by
  unfold decodeHave at h
  cases hU : getU32 b1 with
  | none => rw [hU] at h; exact absurd h (by simp)
  | some p =>
      obtain ⟨idx, b2⟩ := p
      rw [hU] at h
      injection h with hm hr
      subst hr
      exact ⟨⟨idx, hm.symm⟩, (getU32_some hU).2⟩

theorem decodeBitfield_ok {L : Nat} {b1 : List Nat} {m : Message} {rest : List Nat}
    (h : decodeBitfield L b1 = .ok m rest) :
    (∃ bf, m = .Bitfield bf) ∧ b1.length = rest.length + (L - 1) := by
  unfold decodeBitfield at h
  cases hC : copyToSlice (L - 1) b1 with
  | none => rw [hC] at h; exact absurd h (by simp)
  | some p =>
      obtain ⟨raw, b2⟩ := p
      rw [hC] at h
      injection h with hm hr
      subst hr
      exact ⟨⟨bitfieldFromVec raw, hm.symm⟩, (copyToSlice_some hC).2⟩

theorem decodeRequest_ok {b1 : List Nat} {m : Message} {rest : List Nat}
    (h : decodeRequest b1 = .ok m rest) :
    (∃ info, m = .Request info) ∧ b1.length = rest.length + 12 := by
  unfold decodeRequest at h
  split at h
  · exact absurd h (by simp)
  next pi b2 hU1 =>
  split at h
  · exact absurd h (by simp)
  next off b3 hU2 =>
  split at h
  · exact absurd h (by simp)
  next ln b4 hU3 =>
  injection h with hm hr
  subst hr
  have e1 := (getU32_some hU1).2
  have e2 := (getU32_some hU2).2
  have e3 := (getU32_some hU3).2
  exact ⟨⟨⟨pi, off, ln⟩, hm.symm⟩, by omega⟩

theorem decodeCancel_ok {b1 : List Nat} {m : Message} {rest : List Nat}
    (h : decodeCancel b1 = .ok m rest) :
    (∃ info, m = .Cancel info) ∧ b1.length = rest.length + 12 := by
  unfold decodeCancel at h
  split at h
  · exact absurd h (by simp)
  next pi b2 hU1 =>
  split at h
  · exact absurd h (by simp)
  next off b3 hU2 =>
  split at h
  · exact absurd h (by simp)
  next ln b4 hU3 =>
  injection h with hm hr
  subst hr
  have e1 := (getU32_some hU1).2
  have e2 := (getU32_some hU2).2
  have e3 := (getU32_some hU3).2
  exact ⟨⟨⟨pi, off, ln⟩, hm.symm⟩, by omega⟩

theorem decodeBlock_ok {L : Nat} {b1 : List Nat} {m : Message} {rest : List Nat}
    (h : decodeBlock L b1 = .ok m rest) :
    (∃ pi off data, m = .Block pi off data) ∧ 9 ≤ L ∧
      b1.length = rest.length + 8 + (L - 1 - 8) := by
  unfold decodeBlock at h
  split at h
  · exact absurd h (by simp)
  next pi b2 hU1 =>
  split at h
  · exact absurd h (by simp)
  next off b3 hU2 =>
  split at h
  · exact absurd h (by simp)
  next hL =>
  split at h
  · exact absurd h (by simp)
  next data b4 hC =>
  injection h with hm hr
  subst hr
  have e1 := (getU32_some hU1).2
  have e2 := (getU32_some hU2).2
  have e3 := (copyToSlice_some hC).2
  exact ⟨⟨pi, off, data, hm.symm⟩, by omega, by omega⟩

theorem decodeBody_unknown {L idByte : Nat} {b1 : List Nat} (h : 9 ≤ idByte) :
    decodeBody L idByte b1 = .ioError := by
  unfold decodeBody
  split_ifs with h0 h1 h2 h3 h4 h5 h6 h7 h8
  all_goals first | rfl | omega

/-- Shared helper: byte accounting for every successful decode. -/
theorem peerDecode_ok_len (buf : List Nat) (m : Message) (rest : List Nat)
    (h : peerDecode buf = .ok m rest) :
    buf.length = rest.length + 4 + consumedLen m (readU32 buf) := by
  unfold peerDecode at h
  by_cases h4 : buf.length < 4
  · rw [if_pos h4] at h; exact absurd h (by simp)
  rw [if_neg h4] at h
  by_cases hlen : buf.length < 4 + readU32 buf
  · rw [if_pos hlen] at h; exact absurd h (by simp)
  rw [if_neg hlen] at h
  have hdrop : (buf.drop 4).length = buf.length - 4 := List.length_drop 4 buf
  by_cases h0 : readU32 buf = 0
  · rw [if_pos h0] at h
    injection h with hm hr
    subst hr
    subst hm
    simp only [consumedLen, h0]
    omega
  rw [if_neg h0] at h
  split at h
  · exact absurd h (by simp)
  case _ idByte b1 hU8 =>
      have hb1 := getU8_some hU8
      unfold decodeBody at h
      by_cases hid0 : idByte = 0
      · rw [if_pos hid0] at h
        injection h with hm hr; subst hr; subst hm
        simp only [consumedLen]; omega
      rw [if_neg hid0] at h
      by_cases hid1 : idByte = 1
      · rw [if_pos hid1] at h
        injection h with hm hr; subst hr; subst hm
        simp only [consumedLen]; omega
      rw [if_neg hid1] at h
      by_cases hid2 : idByte = 2
      · rw [if_pos hid2] at h
        injection h with hm hr; subst hr; subst hm
        simp only [consumedLen]; omega
      rw [if_neg hid2] at h
      by_cases hid3 : idByte = 3
      · rw [if_pos hid3] at h
        injection h with hm hr; subst hr; subst hm
        simp only [consumedLen]; omega
      rw [if_neg hid3] at h
      by_cases hid4 : idByte = 4
      · rw [if_pos hid4] at h
        obtain ⟨⟨idx, hm⟩, e⟩ := decodeHave_ok h
        subst hm
        simp only [consumedLen]; omega
      rw [if_neg hid4] at h
      by_cases hid5 : idByte = 5
      · rw [if_pos hid5] at h
        obtain ⟨⟨bf, hm⟩, e⟩ := decodeBitfield_ok h
        subst hm
        simp only [consumedLen]
        omega
      rw [if_neg hid5] at h
      by_cases hid6 : idByte = 6
      · rw [if_pos hid6] at h
        obtain ⟨⟨info, hm⟩, e⟩ := decodeRequest_ok h
        subst hm
        simp only [consumedLen]; omega
      rw [if_neg hid6] at h
      by_cases hid7 : idByte = 7
      · rw [if_pos hid7] at h
        obtain ⟨⟨pi, off, data, hm⟩, h9, e⟩ := decodeBlock_ok h
        subst hm
        simp only [consumedLen]
        omega
      rw [if_neg hid7] at h
      by_cases hid8 : idByte = 8
      · rw [if_pos hid8] at h
        obtain ⟨⟨info, hm⟩, e⟩ := decodeCancel_ok h
        subst hm
        simp only [consumedLen]; omega
      rw [if_neg hid8] at h
      exact absurd h (by simp)

/-- Shared helper: a fully buffered non-KeepAlive frame whose first payload
byte is not a known message ID (0..8) is a hard error. -/
theorem peerDecode_unknown_id (buf : List Nat)
    (hlen : 4 + readU32 buf ≤ buf.length) (hL : 1 ≤ readU32 buf)
    (hid : 9 ≤ buf.getD 4 0) : peerDecode buf = .ioError := by
  have h5 : 4 < buf.length := by omega
  have hdrop : buf.drop 4 = buf[4] :: buf.drop 5 := List.drop_eq_getElem_cons h5
  unfold peerDecode
  rw [if_neg (show ¬buf.length < 4 by omega)]
  rw [if_neg (show ¬buf.length < 4 + readU32 buf by omega)]
  rw [if_neg (show ¬readU32 buf = 0 by omega), hdrop]
  have h9 : (9 : Nat) ≤ buf[4] := by rwa [List.getD_eq_getElem buf 0 h5] at hid
  exact decodeBody_unknown h9

/-- Claim C5 counterexample: a frame with length prefix 100 whose payload
starts with the Choke ID decodes successfully but consumes only 5 bytes,
not `4 + length = 104`: the decoder never checks the prefix against the
type's actual size. -/
theorem decode_consumption_cex :
    peerDecode ([0, 0, 0, 100] ++ List.replicate 100 0)
      = .ok Message.Choke (List.replicate 99 0) ∧
    ([0, 0, 0, 100] ++ List.replicate 100 0).length -
        (List.replicate 99 (0 : Nat)).length
      ≠ 4 + readU32 ([0, 0, 0, 100] ++ List.replicate 100 0) := by
  exact ⟨by decide, by decide⟩

/-- Claim C5 (amended): the decoder returns `None` whenever fewer than
`4 + length` bytes are buffered; after a successful decode it has consumed
exactly `4 + c` bytes where `c` is fixed by the decoded message type (0 for
KeepAlive, 1 for Choke/Unchoke/Interested/NotInterested, 5 for Have, 13 for
Request/Cancel, and the length prefix for Bitfield/Block) — equal to
`4 + length` exactly when the length prefix matches that size; a first
payload byte that is not a known message ID (0 through 8) is a hard
error. -/
theorem peer_decode_framing (buf : List Nat) :
    (buf.length < 4 + readU32 buf → peerDecode buf = .incomplete) ∧
    (∀ m rest, peerDecode buf = .ok m rest →
        buf.length = rest.length + 4 + consumedLen m (readU32 buf)) ∧
    (4 + readU32 buf ≤ buf.length → 1 ≤ readU32 buf → 9 ≤ buf.getD 4 0 →
        peerDecode buf = .ioError) :=
  ⟨peerDecode_incomplete_of_short buf,
   fun m rest h => peerDecode_ok_len buf m rest h,
   fun h1 h2 h3 => peerDecode_unknown_id buf h1 h2 h3⟩

theorem peer_decode_framing_witness :
    peerDecode [0, 0, 0, 2] = .incomplete ∧
    ([0, 0, 0, 100] ++ List.replicate 100 0).length
      = (List.replicate 99 (0 : Nat)).length + 4 +
        consumedLen Message.Choke (readU32 ([0, 0, 0, 100] ++ List.replicate 100 0)) ∧
    peerDecode [0, 0, 0, 1, 9] = .ioError :=
  ⟨(peer_decode_framing [0, 0, 0, 2]).1 (by decide),
   (peer_decode_framing ([0, 0, 0, 100] ++ List.replicate 100 0)).2.1
      Message.Choke (List.replicate 99 0) (by decide),
   (peer_decode_framing [0, 0, 0, 1, 9]).2.2 (by decide) (by decide) (by decide)⟩

/-- Claim C6 counterexample: a frame with length prefix
`16777226 > 16 MiB + 9` and only the four prefix bytes buffered: the decoder
reports an incomplete frame (keeps buffering) instead of a protocol
error. -/
theorem huge_length_cex :
    readU32 [1, 0, 0, 10] = 16777226 ∧ 16 * 2 ^ 20 + 9 < 16777226 ∧
    peerDecode [1, 0, 0, 10] = .incomplete ∧
    (DecodeResult.incomplete : DecodeResult Message) ≠ .ioError := by
  refine ⟨by decide, by decide, by decide, by decide⟩

/-- Claim C6 (amended): `PeerCodec::decode` performs no maximum-length
check: a frame whose length prefix exceeds 16 MiB + 9 is not treated as an
error; while fewer than `4 + length` bytes are buffered the decoder returns
`None` and keeps buffering, and once enough bytes arrive the frame is
decoded like any other. -/
theorem huge_length_buffered (buf : List Nat)
    (_hbig : 16 * 2 ^ 20 + 9 < readU32 buf)
    (hshort : buf.length < 4 + readU32 buf) :
    peerDecode buf = .incomplete :=
  peerDecode_incomplete_of_short buf hshort

theorem huge_length_buffered_witness :
    16 * 2 ^ 20 + 9 < readU32 [1, 0, 0, 10] ∧
    peerDecode [1, 0, 0, 10] = .incomplete :=
  ⟨by decide, huge_length_buffered [1, 0, 0, 10] (by decide) (by decide)⟩

/-! ## The vectored I/O view (`src/cratetorrent/src/iovecs.rs`)

Buffers are byte lists; an `IoVec` is its byte slice.  The `Split` record
holds the index of the buffer at (or before) the split and, when the split
fell inside that buffer, the saved second half. -/

structure IoVecs where
  bufs : List (List Nat)
  split : Option (Nat × Option (List Nat))
deriving DecidableEq, Repr

/-- The loop of `IoVecs::bounded`: `i` is the current index into the original
array, `acc` the total length of the buffers already passed over.  On an
exact boundary at the last buffer the view is unbounded; on an exact interior
boundary the split records `(i, None)`; otherwise buffer `i` is replaced in
place by its first `max_len - acc` bytes and the rest saved. -/
def boundedLoop (orig : List (List Nat)) (max_len : Nat) :
    Nat → Nat → List (List Nat) → IoVecs
  | _, _, [] => ⟨orig, none⟩
  | i, acc, buf :: rest =>
    if max_len ≤ acc + buf.length then
      if acc + buf.length = max_len then
        if rest.isEmpty then ⟨orig, none⟩
        else ⟨orig, some (i, none)⟩
      else
        ⟨orig.set i (buf.take (max_len - acc)),
          some (i, some (buf.drop (max_len - acc)))⟩
    else boundedLoop orig max_len (i + 1) (acc + buf.length) rest

/-- `IoVecs::bounded` (the `assert!(max_len > 0)` is a hypothesis of the
theorems below). -/
def IoVecs.bounded (bufs : List (List Nat)) (max_len : Nat) : IoVecs :=
  boundedLoop bufs max_len 0 0 bufs

/-- `IoVecs::as_slice`: the head buffers, `bufs[..=pos]` when split. -/
def IoVecs.as_slice (v : IoVecs) : List (List Nat) :=
  match v.split with
  | some (pos, _) => v.bufs.take (pos + 1)
  | none => v.bufs

/-- `IoVecs::into_tail`: restore the saved second half at the split (if any)
and return everything from the split onwards; an exact-boundary split starts
at `pos + 1`; with no split the tail is empty. -/
def IoVecs.into_tail (v : IoVecs) : List (List Nat) :=
  match v.split with
  | some (pos, some sec) => (v.bufs.set pos sec).drop pos
  | some (pos, none) => v.bufs.drop (pos + 1)
  | none => []

/-- Total byte length of a buffer list. -/
def totalLen (bufs : List (List Nat)) : Nat := (bufs.map List.length).sum

theorem totalLen_nil : totalLen [] = 0 := rfl

theorem totalLen_cons (x : List Nat) (xs : List (List Nat)) :
    totalLen (x :: xs) = x.length + totalLen xs := by
  simp [totalLen]

theorem totalLen_append (a b : List (List Nat)) :
    totalLen (a ++ b) = totalLen a + totalLen b := by
  simp [totalLen]

theorem set_append_len {α : Type} (pre : List α) (b x : α) (r : List α) :
    (pre ++ b :: r).set pre.length x = pre ++ x :: r := by
  induction pre with
  | nil => rfl
  | cons a as ih => simpa using ih

theorem boundedLoop_spec (max_len : Nat) :
    ∀ (rest pre : List (List Nat)),
      totalLen pre < max_len → max_len ≤ totalLen pre + totalLen rest →
      totalLen (boundedLoop (pre ++ rest) max_len pre.length (totalLen pre) rest).as_slice
          = max_len ∧
      totalLen (boundedLoop (pre ++ rest) max_len pre.length (totalLen pre) rest).into_tail
          = totalLen (pre ++ rest) - max_len ∧
      (boundedLoop (pre ++ rest) max_len pre.length (totalLen pre) rest).as_slice.flatten ++
          (boundedLoop (pre ++ rest) max_len pre.length (totalLen pre) rest).into_tail.flatten
        = (pre ++ rest).flatten := by
  intro rest
  induction rest with
  | nil =>
      intro pre h1 h2
      rw [totalLen_nil] at h2
      omega
  | cons buf rest ih =>
      intro pre h1 h2
      rw [totalLen_cons] at h2
      by_cases hle : max_len ≤ totalLen pre + buf.length
      · by_cases heq : totalLen pre + buf.length = max_len
        · cases rest with
          | nil =>
              rw [boundedLoop, if_pos hle, if_pos heq]
              simp only [List.isEmpty_nil, if_pos]
              refine ⟨?_, ?_, ?_⟩
              · simp [IoVecs.as_slice, totalLen_append, totalLen_cons, totalLen_nil]
                omega
              · simp [IoVecs.into_tail, totalLen_nil, totalLen_append, totalLen_cons]
                omega
              · simp [IoVecs.as_slice, IoVecs.into_tail]
          | cons r rs =>
              rw [boundedLoop, if_pos hle, if_pos heq]
              simp only [List.isEmpty_cons, Bool.false_eq_true, if_false]
              constructor
              · simp [IoVecs.as_slice, List.take_append, totalLen_append, totalLen_cons,
                  totalLen_nil]
                omega
              constructor
              · simp [IoVecs.into_tail, List.drop_append, totalLen_append, totalLen_cons]
                omega
              · simp [IoVecs.as_slice, IoVecs.into_tail, List.take_append, List.drop_append,
                  List.flatten_append]
        · rw [boundedLoop, if_pos hle, if_neg heq]
          have hcut : max_len - totalLen pre ≤ buf.length := by omega
          have hbufs : (pre ++ buf :: rest).set pre.length
              (buf.take (max_len - totalLen pre))
              = pre ++ buf.take (max_len - totalLen pre) :: rest :=
            set_append_len pre buf _ rest
          have hslice : (pre ++ buf.take (max_len - totalLen pre) :: rest).take (pre.length + 1)
              = pre ++ [buf.take (max_len - totalLen pre)] := by
            rw [List.take_append 1]
            rfl
          have htail : ((pre ++ buf.take (max_len - totalLen pre) :: rest).set pre.length
                (buf.drop (max_len - totalLen pre))).drop pre.length
              = buf.drop (max_len - totalLen pre) :: rest := by
            rw [set_append_len, List.drop_left]
          refine ⟨?_, ?_, ?_⟩
          · simp only [IoVecs.as_slice, hbufs, hslice]
            rw [totalLen_append, totalLen_cons, totalLen_nil, List.length_take]
            omega
          · simp only [IoVecs.into_tail, hbufs, htail]
            rw [totalLen_cons, List.length_drop, totalLen_append, totalLen_cons]
            omega
          · simp only [IoVecs.as_slice, IoVecs.into_tail, hbufs, hslice, htail,
              List.flatten_append, List.flatten_cons, List.flatten_nil, List.append_nil]
            rw [List.append_assoc, ← List.append_assoc (List.take (max_len - totalLen pre) buf),
              List.take_append_drop]
      · rw [boundedLoop, if_neg hle]
        have ih' := ih (pre ++ [buf]) (by rw [totalLen_append, totalLen_cons, totalLen_nil]; omega)
          (by rw [totalLen_append, totalLen_cons, totalLen_nil]; omega)
        rw [show (pre ++ [buf]) ++ rest = pre ++ buf :: rest by simp] at ih'
        rw [show (pre ++ [buf]).length = pre.length + 1 by simp] at ih'
        rw [show totalLen (pre ++ [buf]) = totalLen pre + buf.length by
          rw [totalLen_append, totalLen_cons, totalLen_nil]; omega] at ih'
        exact ih'

/-- Claim C2: for every buffer sequence and every `n` with `0 < n` and `n`
at most the total length `T`, `IoVecs::bounded` yields a head whose buffer
lengths sum to exactly `n`, a tail (`into_tail`) whose lengths sum to
`T - n`, and head-then-tail concatenation reproduces the original bytes
(exact buffer boundaries included). -/
theorem iovecs_bounded_roundtrip (bufs : List (List Nat)) (n : Nat)
    (hpos : 0 < n) (hn : n ≤ totalLen bufs) :
    totalLen (IoVecs.bounded bufs n).as_slice = n ∧
    totalLen (IoVecs.bounded bufs n).into_tail = totalLen bufs - n ∧
    (IoVecs.bounded bufs n).as_slice.flatten ++
        (IoVecs.bounded bufs n).into_tail.flatten = bufs.flatten := by
  have h := boundedLoop_spec n bufs [] (by rw [totalLen_nil]; omega)
    (by rw [totalLen_nil]; omega)
  simpa [IoVecs.bounded, totalLen_nil] using h

theorem iovecs_bounded_roundtrip_witness :
    (0 : Nat) < 3 ∧ 3 ≤ totalLen [[1, 2], [3, 4]] ∧
    totalLen (IoVecs.bounded [[1, 2], [3, 4]] 3).as_slice = 3 ∧
    totalLen (IoVecs.bounded [[1, 2], [3, 4]] 3).into_tail = totalLen [[1, 2], [3, 4]] - 3 ∧
    (IoVecs.bounded [[1, 2], [3, 4]] 3).as_slice.flatten ++
        (IoVecs.bounded [[1, 2], [3, 4]] 3).into_tail.flatten = [[1, 2], [3, 4]].flatten :=
  ⟨by decide, by decide,
    iovecs_bounded_roundtrip [[1, 2], [3, 4]] 3 (by decide) (by decide)⟩

/-! ## `TorrentFile::write` (`src/cratetorrent/src/disk/io/file.rs`)

The positional vectored write `pwritev` is modelled by an environment-chosen
list `ns` of per-call return counts: each call lays down the first `n` bytes
of the gathered buffers at the given file offset and reports `n` written. -/

/-- The first loop of `IoVecs::advance`: how many whole buffers are consumed
by `n` bytes, and how many bytes they cover (`(dropped, removed)`). -/
def advanceDrop (n : Nat) : List (List Nat) → Nat × Nat
  | [] => (0, 0)
  | buf :: rest =>
    if n < buf.length then (0, 0)
    else
      let p := advanceDrop (n - buf.length) rest
      (p.1 + 1, p.2 + buf.length)

/-- `IoVecs::advance`: drop whole consumed buffers, shift the split position
(`saturating_sub`, i.e. truncated subtraction), then shorten the next buffer
by the leftover; `none` models the `assert!(left <= buf.len())` panic. -/
def IoVecs.advance (v : IoVecs) (n : Nat) : Option IoVecs :=
  if n = 0 then some v
  else
    let p := advanceDrop n v.as_slice
    let bufs := v.bufs.drop p.1
    let split := v.split.map (fun s => (s.1 - p.1, s.2))
    let left := n - p.2
    if 0 < left ∧ bufs ≠ [] then
      if left ≤ (bufs.headD []).length then
        some ⟨bufs.set 0 ((bufs.headD []).drop left), split⟩
      else none
    else some ⟨bufs, split⟩

/-- Overwrite `data.length` bytes of `file` starting at `pos` (the effect of
a positional write that stays within the file). -/
def writeAt (file : List Nat) (pos : Nat) (data : List Nat) : List Nat :=
  (List.range file.length).map fun i =>
    if pos ≤ i ∧ i < pos + data.length then data.getD (i - pos) 0 else file.getD i 0

/-- `FileSlice { file_index, offset, len }` (from the spec's data model; the
`storage_info` module is not under `src/`, but only `offset` and `len` are
used by `TorrentFile::write`). -/
structure FileSlice where
  offset : Nat
  len : Nat
deriving DecidableEq, Repr

/-- The `while !iovecs.as_slice().is_empty()` loop of `TorrentFile::write`:
each iteration issues `pwritev(handle, ios, file_slice.offset)` — NOTE: at
the original `file_slice.offset`, not advanced by `total_written` — adds the
returned count, breaks once `total_written == file_slice.len`, otherwise
advances the view.  `ns` are the environment's pwritev return counts
(each at most the bytes requested); `none` means the modelled run ended
abnormally (panic, or `ns` exhausted before the loop exits). -/
def writeLoop (offset goal : Nat) :
    List Nat → List Nat → IoVecs → Nat → Option (List Nat × IoVecs)
  | [], file, v, _ => if v.as_slice.isEmpty then some (file, v) else none
  | n :: ns, file, v, total =>
    if v.as_slice.isEmpty then some (file, v)
    else if n ≤ totalLen v.as_slice then
      let file2 := writeAt file offset (v.as_slice.flatten.take n)
      if total + n = goal then some (file2, v)
      else
        match v.advance n with
        | some v2 => writeLoop offset goal ns file2 v2 (total + n)
        | none => none
    else none

/-- `TorrentFile::write`: bound the blocks to `file_slice.len` bytes, run the
write loop, and return the final file contents together with
`iovecs.into_tail()`. -/
def TorrentFile.write (file : List Nat) (fs : FileSlice) (blocks : List (List Nat))
    (ns : List Nat) : Option (List Nat × List (List Nat)) :=
  if fs.len = 0 then none
  else
    match writeLoop fs.offset fs.len ns file (IoVecs.bounded blocks fs.len) 0 with
    | some (file2, v) => some (file2, v.into_tail)
    | none => none

/-- Claim C7: FAILS on the code.  With `FileSlice { offset: 0, len: 4 }`,
blocks `[[1,2,3,4]]` and a short first `pwritev` that writes 2 bytes, the
retry re-issues the remaining bytes at `file_slice.offset` instead of
`offset + 2` (compare `TorrentFile::read`, which does advance the offset):
the file ends as `[3,4,0,0]`, not the first `len` bytes `[1,2,3,4]` of the
buffers at consecutive positions. -/
theorem write_short_write_wrong_offset :
    TorrentFile.write [0, 0, 0, 0] ⟨0, 4⟩ [[1, 2, 3, 4]] [2, 2]
      = some ([3, 4, 0, 0], []) ∧
    ([3, 4, 0, 0] : List Nat) ≠ [1, 2, 3, 4] := by
  exact ⟨by decide, by decide⟩

/-! ## The piece picker (`src/cratetorrent/src/piece_picker.rs`)

`pieces.len() == own_pieces.len()` in every state built by `new` (and
preserved by every operation); the `self.pieces[index]` accesses are
modelled with `getD`/`set`, and the asserted panics by `Option.none`. -/

/-- `Piece { frequency: usize, is_pending: bool }` (`Default` is all-zero). -/
structure Piece where
  frequency : Nat
  is_pending : Bool
deriving DecidableEq, Repr

instance : Inhabited Piece := ⟨⟨0, false⟩⟩

/-- `usize::saturating_add` at 64 bits. -/
def usizeSatAdd (a b : Nat) : Nat := min (a + b) (2 ^ 64 - 1)

/-- The `PiecePicker` state. -/
structure PiecePicker where
  own_pieces : List Bool
  pieces : List Piece
  missing_count : Nat
  free_count : Nat
deriving DecidableEq, Repr

/-- `Bitfield::count_zeros`. -/
def countZeros : List Bool → Nat
  | [] => 0
  | b :: bs => (if b = false then 1 else 0) + countZeros bs

/-- `Bitfield::count_ones`. -/
def countOnes : List Bool → Nat
  | [] => 0
  | b :: bs => (if b = true then 1 else 0) + countOnes bs

/-- `PiecePicker::new`. -/
def PiecePicker.new (own : List Bool) : PiecePicker :=
  ⟨own, List.replicate own.length ⟨0, false⟩, countZeros own, countZeros own⟩

/-- The scan of `PiecePicker::pick_piece` over `0..own_pieces.len()` in
lockstep with `pieces`. -/
def findCandidate : List Bool → List Piece → Nat → Option Nat
  | own :: owns, pc :: ps, i =>
    if own = false ∧ 0 < pc.frequency ∧ pc.is_pending = false then some i
    else findCandidate owns ps (i + 1)
  | _, _, _ => none

/-- `PiecePicker::pick_piece`: mark the found piece pending and decrement
`free_count` (`saturating_sub`, which truncated `Nat` subtraction models
exactly). -/
def PiecePicker.pick_piece (p : PiecePicker) : Option Nat × PiecePicker :=
  match findCandidate p.own_pieces p.pieces 0 with
  | some i =>
    (some i,
      { p with
        pieces := p.pieces.set i { p.pieces.getD i default with is_pending := true },
        free_count := p.free_count - 1 })
  | none => (none, p)

/-- The loop of `register_peer_pieces`, walking the peer bitfield, our
bitfield and the metadata in lockstep; yields the `interested` flag and the
updated metadata. -/
def regLoop : List Bool → List Bool → List Piece → Bool × List Piece
  | b :: bfs, own :: owns, pc :: ps =>
    let rest := regLoop bfs owns ps
    if b then
      ((!own) || rest.1, { pc with frequency := usizeSatAdd pc.frequency 1 } :: rest.2)
    else (rest.1, pc :: rest.2)
  | _, _, ps => (false, ps)

/-- `PiecePicker::register_peer_pieces`; `none` models the
`assert_eq!(pieces.len(), own_pieces.len())` panic. -/
def PiecePicker.register_peer_pieces (p : PiecePicker) (bf : List Bool) :
    Option (Bool × PiecePicker) :=
  if bf.length = p.own_pieces.length then
    some ((regLoop bf p.own_pieces p.pieces).1,
      { p with pieces := (regLoop bf p.own_pieces p.pieces).2 })
  else none

/-- `PiecePicker::register_peer_piece`; `none` models the bounds-check
panic. -/
def PiecePicker.register_peer_piece (p : PiecePicker) (i : Nat) :
    Option (Bool × PiecePicker) :=
  if i < p.own_pieces.length then
    some (!(p.own_pieces.getD i false),
      { p with pieces := p.pieces.set i { p.pieces.getD i default with frequency := usizeSatAdd (p.pieces.getD i default).frequency 1 } })
  else none

/-- `PiecePicker::received_piece`; `none` models the bounds-check and
already-received panics.  `missing_count`/`free_count` use `saturating_sub`
(truncated subtraction). -/
def PiecePicker.received_piece (p : PiecePicker) (i : Nat) : Option PiecePicker :=
  if i < p.own_pieces.length then
    if p.own_pieces.getD i false then none
    else
      some { own_pieces := p.own_pieces.set i true,
             pieces := p.pieces.set i { p.pieces.getD i default with is_pending := false },
             missing_count := p.missing_count - 1,
             free_count := if (p.pieces.getD i default).is_pending = false
               then p.free_count - 1 else p.free_count }
  else none

/-- A picker call, for claim C3's operation sequences. -/
inductive PickerOp where
  | pick
  | registerPieces (bf : List Bool)
  | registerPiece (i : Nat)
  | received (i : Nat)
deriving DecidableEq, Repr

/-- One picker call; `none` propagates a panic. -/
def applyOp (p : PiecePicker) : PickerOp → Option PiecePicker
  | .pick => some (p.pick_piece).2
  | .registerPieces bf => (p.register_peer_pieces bf).map (·.2)
  | .registerPiece i => (p.register_peer_piece i).map (·.2)
  | .received i => p.received_piece i

/-- Run a sequence of picker calls. -/
def runOps (p : PiecePicker) : List PickerOp → Option PiecePicker
  | [] => some p
  | op :: ops =>
    match applyOp p op with
    | some p2 => runOps p2 ops
    | none => none

/-- Number of pieces that are neither owned nor pending, in lockstep over
the two lists. -/
def countFree : List Bool → List Piece → Nat
  | own :: owns, pc :: ps =>
    (if own = false ∧ pc.is_pending = false then 1 else 0) + countFree owns ps
  | _, _ => 0

/-- The picker's representation invariant: the cached counters agree with
the state they summarise. -/
def PickerInv (p : PiecePicker) : Prop :=
  p.pieces.length = p.own_pieces.length ∧
  p.missing_count = countZeros p.own_pieces ∧
  p.free_count = countFree p.own_pieces p.pieces

/-- Index `i` satisfies the pick condition
`!own_pieces[i] && pieces[i].frequency > 0 && !pieces[i].is_pending`
(out-of-range indices never qualify: the defaults fail the test). -/
def isCandidate (own : List Bool) (ps : List Piece) (i : Nat) : Prop :=
  own.getD i true = false ∧ 0 < (ps.getD i default).frequency ∧
    (ps.getD i default).is_pending = false

instance (own : List Bool) (ps : List Piece) (i : Nat) :
    Decidable (isCandidate own ps i) := by
  unfold isCandidate; infer_instance

theorem countFree_le_countZeros (own : List Bool) :
    ∀ ps : List Piece, countFree own ps ≤ countZeros own := by
  induction own with
  | nil => intro ps; cases ps <;> exact Nat.le_refl 0
  | cons o owns ih =>
      intro ps
      cases ps with
      | nil => exact Nat.zero_le _
      | cons pc ps =>
          have h := ih ps
          simp only [countFree, countZeros]
          by_cases ho : o = false
          · by_cases hp : pc.is_pending = false
            · rw [if_pos ⟨ho, hp⟩, if_pos ho]; omega
            · rw [if_neg (fun hc => hp hc.2), if_pos ho]; omega
          · rw [if_neg (fun hc => ho hc.1), if_neg ho]; omega

theorem countZeros_add_countOnes (own : List Bool) :
    countZeros own + countOnes own = own.length := by
  induction own with
  | nil => rfl
  | cons o owns ih =>
      simp only [countZeros, countOnes, List.length_cons]
      cases o <;> simp <;> omega

theorem countFree_replicate (own : List Bool) :
    countFree own (List.replicate own.length ⟨0, false⟩) = countZeros own := by
  induction own with
  | nil => rfl
  | cons o owns ih =>
      cases o <;>
        simp [List.length_cons, List.replicate_succ, countFree, countZeros, ih]

theorem countFree_set_pending (own : List Bool) :
    ∀ (ps : List Piece) (i : Nat) (q : Piece),
      own.getD i true = false → (ps.getD i default).is_pending = false →
      q.is_pending = true → i < ps.length →
      countFree own (ps.set i q) + 1 = countFree own ps := by
  induction own with
  | nil => intro ps i q h1 _ _ _; simp at h1
  | cons o owns ih =>
      intro ps i q h1 h2 hq h3
      cases ps with
      | nil => simp at h3
      | cons pc ps =>
          cases i with
          | zero =>
              simp only [List.getD_cons_zero] at h1 h2
              simp only [List.set_cons_zero, countFree]
              rw [if_neg (fun hc => by rw [hq] at hc; exact absurd hc.2 (by simp)),
                if_pos ⟨h1, h2⟩]
              omega
          | succ m =>
              simp only [List.getD_cons_succ] at h1 h2
              have h3m : m < ps.length := by simpa using h3
              simp only [List.set_cons_succ, countFree]
              have := ih ps m q h1 h2 hq h3m
              omega

theorem countFree_set_same_pending (own : List Bool) :
    ∀ (ps : List Piece) (i : Nat) (q : Piece),
      q.is_pending = (ps.getD i default).is_pending →
      countFree own (ps.set i q) = countFree own ps := by
  induction own with
  | nil => intro ps i q _; cases ps <;> rfl
  | cons o owns ih =>
      intro ps i q hq
      cases ps with
      | nil => rfl
      | cons pc ps =>
          cases i with
          | zero =>
              simp only [List.getD_cons_zero] at hq
              simp only [List.set_cons_zero, countFree, hq]
          | succ m =>
              simp only [List.getD_cons_succ] at hq
              simp only [List.set_cons_succ, countFree, ih ps m q hq]

theorem regLoop_countFree (bf : List Bool) :
    ∀ (own : List Bool) (ps : List Piece),
      countFree own (regLoop bf own ps).2 = countFree own ps ∧
      (regLoop bf own ps).2.length = ps.length := by
  induction bf with
  | nil => intro own ps; exact ⟨rfl, rfl⟩
  | cons b bs ih =>
      intro own ps
      cases own with
      | nil => exact ⟨rfl, rfl⟩
      | cons o owns =>
          cases ps with
          | nil => exact ⟨rfl, rfl⟩
          | cons pc ps =>
              obtain ⟨ih1, ih2⟩ := ih owns ps
              cases b <;> simp [regLoop, countFree, ih1, ih2]

theorem countZeros_set_true (own : List Bool) :
    ∀ i : Nat, own.getD i true = false → countZeros (own.set i true) + 1 = countZeros own := by
  induction own with
  | nil => intro i h; simp at h
  | cons o owns ih =>
      intro i h
      cases i with
      | zero =>
          simp only [List.getD_cons_zero] at h
          subst h
          simp [countZeros, Nat.add_comm]
      | succ m =>
          simp only [List.getD_cons_succ] at h
          simp only [List.set_cons_succ, countZeros]
          have := ih m h
          omega

theorem countFree_received (own : List Bool) :
    ∀ (ps : List Piece) (i : Nat) (q : Piece),
      own.getD i true = false → i < ps.length →
      countFree (own.set i true) (ps.set i q)
          + (if (ps.getD i default).is_pending = false then 1 else 0)
        = countFree own ps := by
  induction own with
  | nil => intro ps i q h1 _; simp at h1
  | cons o owns ih =>
      intro ps i q h1 h2
      cases ps with
      | nil => simp at h2
      | cons pc ps =>
          cases i with
          | zero =>
              simp only [List.getD_cons_zero] at h1 ⊢
              subst h1
              simp only [List.set_cons_zero, countFree]
              rw [if_neg (fun hc => absurd hc.1 (by simp))]
              by_cases hp : pc.is_pending = false
              · rw [if_pos hp, if_pos ⟨by simp, hp⟩]
                omega
              · rw [if_neg hp, if_neg (fun hc => hp hc.2)]
                omega
          | succ m =>
              simp only [List.getD_cons_succ] at h1 ⊢
              have h2m : m < ps.length := by simpa using h2
              simp only [List.set_cons_succ, countFree]
              have := ih ps m q h1 h2m
              omega

theorem isCandidate_cons_succ (o : Bool) (owns : List Bool) (pc : Piece) (ps : List Piece)
    (m : Nat) : isCandidate (o :: owns) (pc :: ps) (m + 1) ↔ isCandidate owns ps m := by
  simp [isCandidate]

theorem findCandidate_some (own : List Bool) :
    ∀ (ps : List Piece) (k i : Nat), findCandidate own ps k = some i →
      k ≤ i ∧ isCandidate own ps (i - k) ∧
        ∀ j, j < i - k → ¬ isCandidate own ps j := by
  induction own with
  | nil => intro ps k i h; cases ps <;> exact absurd h (by simp [findCandidate])
  | cons o owns ih =>
      intro ps k i h
      cases ps with
      | nil => exact absurd h (by simp [findCandidate])
      | cons pc ps =>
          by_cases hc : o = false ∧ 0 < pc.frequency ∧ pc.is_pending = false
          · rw [findCandidate, if_pos hc] at h
            injection h with h'
            subst h'
            refine ⟨Nat.le_refl _, ?_, ?_⟩
            · rw [Nat.sub_self]
              exact ⟨hc.1, hc.2.1, hc.2.2⟩
            · intro j hj
              rw [Nat.sub_self] at hj
              omega
          · rw [findCandidate, if_neg hc] at h
            obtain ⟨hki, hcand, hmin⟩ := ih ps (k + 1) i h
            refine ⟨by omega, ?_, ?_⟩
            · have hik : i - k = (i - (k + 1)) + 1 := by omega
              rw [hik, isCandidate_cons_succ]
              exact hcand
            · intro j hj
              cases j with
              | zero =>
                  intro hcand0
                  exact hc ⟨hcand0.1, hcand0.2.1, hcand0.2.2⟩
              | succ m =>
                  rw [isCandidate_cons_succ]
                  apply hmin
                  omega

theorem findCandidate_none (own : List Bool) :
    ∀ (ps : List Piece) (k : Nat), findCandidate own ps k = none →
      ∀ j, ¬ isCandidate own ps j := by
  induction own with
  | nil => intro ps k _ j hcand; simp [isCandidate] at hcand
  | cons o owns ih =>
      intro ps k h j
      cases ps with
      | nil =>
          intro hcand
          have h2 := hcand.2.1
          rw [List.getD_nil] at h2
          exact absurd h2 (by decide)
      | cons pc ps =>
          by_cases hc : o = false ∧ 0 < pc.frequency ∧ pc.is_pending = false
          · rw [findCandidate, if_pos hc] at h
            exact absurd h (by simp)
          · rw [findCandidate, if_neg hc] at h
            cases j with
            | zero => intro hcand0; exact hc ⟨hcand0.1, hcand0.2.1, hcand0.2.2⟩
            | succ m =>
                rw [isCandidate_cons_succ]
                exact ih ps (k + 1) h m

/-- A found candidate is in range: an out-of-range index would read the
all-zero default whose frequency is 0. -/
theorem isCandidate_lt {own : List Bool} {ps : List Piece} {i : Nat}
    (h : isCandidate own ps i) : i < ps.length := by
  by_contra hge
  push_neg at hge
  have h2 := h.2.1
  rw [List.getD_eq_default ps default hge] at h2
  exact absurd h2 (by decide)

/-- Claim C4: `pick_piece` returns `Some i` for the smallest `i` with
`!own_pieces[i] && pieces[i].frequency > 0 && !pieces[i].is_pending`, marks
that piece pending and decrements `free_count` by one (`saturating_sub`,
which truncated `Nat` subtraction models exactly), leaving all other state
unchanged; with no candidate it returns `None` and leaves the state
unchanged.  (`pieces` and `own_pieces` have equal length in every state the
picker API can construct; other states panic in Rust.) -/
theorem pick_piece_spec (p : PiecePicker)
    (_hlen : p.pieces.length = p.own_pieces.length) :
    (∀ i p2, p.pick_piece = (some i, p2) →
      isCandidate p.own_pieces p.pieces i ∧
      (∀ j, j < i → ¬ isCandidate p.own_pieces p.pieces j) ∧
      p2 = { p with
             pieces := p.pieces.set i { p.pieces.getD i default with is_pending := true },
             free_count := p.free_count - 1 }) ∧
    (∀ p2, p.pick_piece = (none, p2) →
      p2 = p ∧ ∀ i, ¬ isCandidate p.own_pieces p.pieces i) := by
  constructor
  · intro i p2 h
    unfold PiecePicker.pick_piece at h
    split at h
    · next i' hf =>
        injection h with h1 h2
        injection h1 with h1
        obtain ⟨-, hcand, hmin⟩ := findCandidate_some p.own_pieces p.pieces 0 i' hf
        rw [Nat.sub_zero] at hcand
        subst h1
        refine ⟨hcand, ?_, h2.symm⟩
        intro j hj
        exact hmin j (by omega)
    · next hf =>
        injection h with h1 h2
        exact absurd h1 (by simp)
  · intro p2 h
    unfold PiecePicker.pick_piece at h
    split at h
    · next i' hf =>
        injection h with h1 h2
        exact absurd h1 (by simp)
    · next hf =>
        injection h with h1 h2
        exact ⟨h2.symm, fun i => findCandidate_none p.own_pieces p.pieces 0 hf i⟩

theorem pick_piece_spec_witness :
    isCandidate [true, false, false] [⟨0, false⟩, ⟨0, false⟩, ⟨2, false⟩] 2 ∧
    ¬ isCandidate [true, false, false] [⟨0, false⟩, ⟨0, false⟩, ⟨2, false⟩] 1 ∧
    (PiecePicker.mk [true, false, false] [⟨0, false⟩, ⟨0, false⟩, ⟨2, false⟩] 2 2).pick_piece
      = (some 2, PiecePicker.mk [true, false, false]
          [⟨0, false⟩, ⟨0, false⟩, ⟨2, true⟩] 2 1) := by
  have h := (pick_piece_spec
      (PiecePicker.mk [true, false, false] [⟨0, false⟩, ⟨0, false⟩, ⟨2, false⟩] 2 2)
      (by decide)).1 2
      (PiecePicker.mk [true, false, false] [⟨0, false⟩, ⟨0, false⟩, ⟨2, true⟩] 2 1)
      (by decide)
  exact ⟨h.1, h.2.1 1 (by decide), by decide⟩

theorem applyOp_inv (p p2 : PiecePicker) (op : PickerOp)
    (hinv : PickerInv p) (h : applyOp p op = some p2) :
    PickerInv p2 ∧ p2.own_pieces.length = p.own_pieces.length := by
  obtain ⟨hl, hm, hfr⟩ := hinv
  cases op with
  | pick =>
      simp only [applyOp] at h
      injection h with h2
      subst h2
      unfold PiecePicker.pick_piece
      split
      · next i hf =>
          obtain ⟨-, hcand, -⟩ := findCandidate_some p.own_pieces p.pieces 0 i hf
          rw [Nat.sub_zero] at hcand
          have hilt : i < p.pieces.length := isCandidate_lt hcand
          have hset := countFree_set_pending p.own_pieces p.pieces i
            ⟨(p.pieces.getD i default).frequency, true⟩
            hcand.1 hcand.2.2 rfl hilt
          refine ⟨⟨?_, hm, ?_⟩, rfl⟩
          · simpa using hl
          · have hgoal : countFree p.own_pieces
                (p.pieces.set i ⟨(p.pieces.getD i default).frequency, true⟩)
                = p.free_count - 1 := by omega
            exact hgoal.symm
      · exact ⟨⟨hl, hm, hfr⟩, rfl⟩
  | registerPieces bf =>
      simp only [applyOp, PiecePicker.register_peer_pieces] at h
      split at h
      · next hbf =>
          rw [Option.map_some'] at h
          injection h with h2
          subst h2
          obtain ⟨hreg1, hreg2⟩ := regLoop_countFree bf p.own_pieces p.pieces
          refine ⟨⟨?_, hm, ?_⟩, rfl⟩
          · simpa [hreg2] using hl
          · simpa [hreg1] using hfr
      · rw [Option.map_none'] at h
        exact Option.noConfusion h
  | registerPiece i =>
      simp only [applyOp, PiecePicker.register_peer_piece] at h
      split at h
      · next hi =>
          rw [Option.map_some'] at h
          injection h with h2
          subst h2
          have hsame := countFree_set_same_pending p.own_pieces p.pieces i
            ⟨usizeSatAdd (p.pieces.getD i default).frequency 1,
              (p.pieces.getD i default).is_pending⟩ rfl
          refine ⟨⟨?_, hm, ?_⟩, rfl⟩
          · simpa using hl
          · show p.free_count = countFree p.own_pieces (p.pieces.set i _)
            rw [hsame]
            exact hfr
      · rw [Option.map_none'] at h
        exact Option.noConfusion h
  | received i =>
      simp only [applyOp, PiecePicker.received_piece] at h
      split at h
      · next hi =>
          split at h
          · exact Option.noConfusion h
          · next hown =>
              injection h with h2
              subst h2
              have hownf : p.own_pieces.getD i false = false := by
                cases hgd : p.own_pieces.getD i false
                · rfl
                · exact absurd hgd hown
              have hownt : p.own_pieces.getD i true = false := by
                rw [List.getD_eq_getElem p.own_pieces true hi]
                rwa [List.getD_eq_getElem p.own_pieces false hi] at hownf
              have hips : i < p.pieces.length := by omega
              have hz := countZeros_set_true p.own_pieces i hownt
              have hcf := countFree_received p.own_pieces p.pieces i
                ⟨(p.pieces.getD i default).frequency, false⟩ hownt hips
              have hle2 := countFree_le_countZeros p.own_pieces p.pieces
              refine ⟨⟨?_, ?_, ?_⟩, by simp⟩
              · simp [hl]
              · show p.missing_count - 1 = countZeros (p.own_pieces.set i true)
                omega
              · show (if (p.pieces.getD i default).is_pending = false
                    then p.free_count - 1 else p.free_count)
                  = countFree (p.own_pieces.set i true) (p.pieces.set i _)
                by_cases hp : (p.pieces.getD i default).is_pending = false
                · rw [if_pos hp] at hcf ⊢
                  omega
                · rw [if_neg hp] at hcf ⊢
                  omega
      · exact Option.noConfusion h

theorem runOps_inv (ops : List PickerOp) :
    ∀ p p2 : PiecePicker, PickerInv p → runOps p ops = some p2 →
      PickerInv p2 ∧ p2.own_pieces.length = p.own_pieces.length := by
  induction ops with
  | nil =>
      intro p p2 hinv h
      simp only [runOps] at h
      injection h with h2
      subst h2
      exact ⟨hinv, rfl⟩
  | cons op ops ih =>
      intro p p2 hinv h
      simp only [runOps] at h
      split at h
      · next pmid hmid =>
          obtain ⟨hinv2, hlen2⟩ := applyOp_inv p pmid op hinv hmid
          obtain ⟨hinv3, hlen3⟩ := ih pmid p2 hinv2 h
          exact ⟨hinv3, by omega⟩
      · exact absurd h (by simp)

/-- Claim C3: starting from `PiecePicker::new` on a bitfield of length
`piece_count ≥ 1`, after every sequence of picker operations that completes
without panicking, `missing_count` plus the number of set bits in
`own_pieces` equals `piece_count`, and `free_count ≤ missing_count`. -/
theorem picker_invariant (own : List Bool) (ops : List PickerOp) (p : PiecePicker)
    (_hpc : 1 ≤ own.length)
    (hrun : runOps (PiecePicker.new own) ops = some p) :
    p.own_pieces.length = own.length ∧
    p.missing_count + countOnes p.own_pieces = own.length ∧
    p.free_count ≤ p.missing_count := by
  have hinv0 : PickerInv (PiecePicker.new own) :=
    ⟨by simp [PiecePicker.new], rfl, (countFree_replicate own).symm⟩
  obtain ⟨⟨hl, hm, hfr⟩, hlen⟩ := runOps_inv ops _ p hinv0 hrun
  have hlen2 : p.own_pieces.length = own.length := by
    simpa [PiecePicker.new] using hlen
  refine ⟨hlen2, ?_, ?_⟩
  · rw [hm, ← hlen2]
    exact countZeros_add_countOnes p.own_pieces
  · rw [hm, hfr]
    exact countFree_le_countZeros p.own_pieces p.pieces

theorem picker_invariant_witness :
    1 ≤ ([false, false] : List Bool).length ∧
    runOps (PiecePicker.new [false, false])
        [.registerPieces [true, true], .pick, .received 0]
      = some (PiecePicker.mk [true, false] [⟨1, false⟩, ⟨1, false⟩] 1 1) ∧
    (PiecePicker.mk [true, false] [⟨1, false⟩, ⟨1, false⟩] 1 1).own_pieces.length
      = ([false, false] : List Bool).length ∧
    (PiecePicker.mk [true, false] [⟨1, false⟩, ⟨1, false⟩] 1 1).missing_count
        + countOnes (PiecePicker.mk [true, false] [⟨1, false⟩, ⟨1, false⟩] 1 1).own_pieces
      = ([false, false] : List Bool).length ∧
    (PiecePicker.mk [true, false] [⟨1, false⟩, ⟨1, false⟩] 1 1).free_count
      ≤ (PiecePicker.mk [true, false] [⟨1, false⟩, ⟨1, false⟩] 1 1).missing_count :=
  ⟨by decide, by decide,
    picker_invariant [false, false] [.registerPieces [true, true], .pick, .received 0]
      (PiecePicker.mk [true, false] [⟨1, false⟩, ⟨1, false⟩] 1 1) (by decide) (by decide)⟩

/-! ## Tracker compact-peer decoding (`deserialize_peers::Visitor::visit_bytes`,
identical in `src/cratetorrent/src/tracker.rs` and `tracker/mod.rs`) -/

/-- A decoded socket address: the IPv4 value (the `u32` handed to
`Ipv4Addr::from`) and the port. -/
structure PeerAddr where
  ip : Nat
  port : Nat
deriving DecidableEq, Repr

/-- The `while !b.is_empty()` loop of `visit_bytes`: `get_u32` then
`get_u16`, six bytes per entry (the guard ensures a multiple of six
remains). -/
def parseCompactPeers : List Nat → List PeerAddr
  | b0 :: b1 :: b2 :: b3 :: b4 :: b5 :: rest =>
    ⟨((b0 * 256 + b1) * 256 + b2) * 256 + b3, b4 * 256 + b5⟩ :: parseCompactPeers rest
  | _ => []

/-- `visit_bytes`: reject byte strings whose length is not a multiple of 6,
else decode the entries in order. -/
def visitBytes (b : List Nat) : Except Unit (List PeerAddr) :=
  if b.length % 6 ≠ 0 then .error ()
  else .ok (parseCompactPeers b)

/-- Written from the claim's words: the `k`-th address comes from the 4-byte
big-endian IPv4 at offset `6k` followed by the 2-byte big-endian port. -/
def specCompactPeer (b : List Nat) (k : Nat) : PeerAddr :=
  ⟨readU32 (b.drop (6 * k)),
    (b.drop (6 * k)).getD 4 0 * 256 + (b.drop (6 * k)).getD 5 0⟩

/-- Written from the claim's words: a byte string of length `6k` decodes to
exactly `k` addresses, in order. -/
def specCompactPeers (b : List Nat) : List PeerAddr :=
  (List.range (b.length / 6)).map (specCompactPeer b)

theorem specCompactPeer_shift (b0 b1 b2 b3 b4 b5 : Nat) (rest : List Nat) (k : Nat) :
    specCompactPeer (b0 :: b1 :: b2 :: b3 :: b4 :: b5 :: rest) (k + 1)
      = specCompactPeer rest k := by
  have hd : (b0 :: b1 :: b2 :: b3 :: b4 :: b5 :: rest).drop (6 * (k + 1))
      = rest.drop (6 * k) := by
    rw [show 6 * (k + 1) = 6 + 6 * k by ring, ← List.drop_drop]
    rfl
  unfold specCompactPeer
  rw [hd]

theorem specCompactPeer_zero (b0 b1 b2 b3 b4 b5 : Nat) (rest : List Nat) :
    specCompactPeer (b0 :: b1 :: b2 :: b3 :: b4 :: b5 :: rest) 0
      = ⟨b0 * 2 ^ 24 + b1 * 2 ^ 16 + b2 * 2 ^ 8 + b3, b4 * 256 + b5⟩ := rfl

theorem parseCompactPeers_spec (n : Nat) :
    ∀ b : List Nat, b.length = 6 * n → parseCompactPeers b = specCompactPeers b := by
  induction n with
  | zero =>
      intro b hb
      have hnil : b = [] := List.eq_nil_of_length_eq_zero (by omega)
      subst hnil
      rfl
  | succ n ih =>
      intro b hb
      cases b with
      | nil => simp only [List.length_nil] at hb; omega
      | cons b0 b =>
      cases b with
      | nil => simp only [List.length_cons, List.length_nil] at hb; omega
      | cons b1 b =>
      cases b with
      | nil => simp only [List.length_cons, List.length_nil] at hb; omega
      | cons b2 b =>
      cases b with
      | nil => simp only [List.length_cons, List.length_nil] at hb; omega
      | cons b3 b =>
      cases b with
      | nil => simp only [List.length_cons, List.length_nil] at hb; omega
      | cons b4 b =>
      cases b with
      | nil => simp only [List.length_cons, List.length_nil] at hb; omega
      | cons b5 rest =>
      have hr : rest.length = 6 * n := by
        simp only [List.length_cons] at hb
        omega
      rw [parseCompactPeers, ih rest hr]
      unfold specCompactPeers
      have hlen : (b0 :: b1 :: b2 :: b3 :: b4 :: b5 :: rest).length / 6 = n + 1 := by
        simp only [List.length_cons]
        omega
      have hlenr : rest.length / 6 = n := by omega
      rw [hlen, hlenr, List.range_succ_eq_map, List.map_cons, List.map_map]
      refine congrArg₂ List.cons ?_ ?_
      · rw [specCompactPeer_zero]
        simp only [PeerAddr.mk.injEq]
        exact ⟨by ring, trivial⟩
      · refine List.map_congr_left ?_
        intro k _
        exact (specCompactPeer_shift b0 b1 b2 b3 b4 b5 rest k).symm

/-- Claim C8: a `peers` byte string of length `6k` decodes to exactly `k`
socket addresses, the `k`-th from the 4-byte big-endian IPv4 at offset `6k`
followed by the 2-byte big-endian port, in order; any length that is not a
multiple of 6 is rejected with an error. -/
theorem compact_peers_spec (b : List Nat) :
    (b.length % 6 = 0 →
      visitBytes b = .ok (specCompactPeers b) ∧
      (specCompactPeers b).length = b.length / 6) ∧
    (b.length % 6 ≠ 0 → visitBytes b = .error ()) := by
  constructor
  · intro h6
    refine ⟨?_, by simp [specCompactPeers]⟩
    unfold visitBytes
    rw [if_neg (by omega)]
    have hb : b.length = 6 * (b.length / 6) := by omega
    rw [parseCompactPeers_spec (b.length / 6) b hb]
  · intro h6
    unfold visitBytes
    rw [if_pos h6]

theorem compact_peers_spec_witness :
    visitBytes [10, 0, 0, 1, 26, 225] = .ok (specCompactPeers [10, 0, 0, 1, 26, 225]) ∧
    specCompactPeers [10, 0, 0, 1, 26, 225] = [⟨167772161, 6881⟩] ∧
    visitBytes [1, 2, 3] = .error () :=
  ⟨((compact_peers_spec [10, 0, 0, 1, 26, 225]).1 (by decide)).1,
    by decide,
    (compact_peers_spec [1, 2, 3]).2 (by decide)⟩

/-- Claim C10: `HandshakeCodec::decode` validates only the first byte: every
68-byte input whose first byte is 19 decodes to `Some` handshake carrying
whatever 19 protocol-string bytes, 8 reserved bytes, 20 info-hash bytes and
20 peer-id bytes appear in the input, with no check that the protocol string
is "BitTorrent protocol" or that the reserved bytes are zero. -/
theorem handshake_no_content_validation (buf : List Nat)
    (hlen : buf.length = 68) (h19 : buf.getD 0 0 = 19) :
    hsDecode buf
      = .ok ⟨(buf.drop 1).take 19, (buf.drop 20).take 8,
          (buf.drop 28).take 20, (buf.drop 48).take 20⟩ [] := by
  cases buf with
  | nil => simp at hlen
  | cons b0 rest =>
      simp only [List.getD_cons_zero] at h19
      simp only [List.length_cons] at hlen
      unfold hsDecode
      rw [if_neg (by simp), if_neg (by simp [List.headD, h19]),
        if_neg (by simp only [List.length_cons]; omega)]
      have hdrop : (b0 :: rest).drop 68 = [] :=
        List.drop_eq_nil_of_le (by simp only [List.length_cons]; omega)
      rw [hdrop]
      rfl

theorem handshake_no_content_validation_witness :
    hsDecode (19 :: List.replicate 67 7)
      = .ok ⟨List.replicate 19 7, List.replicate 8 7,
          List.replicate 20 7, List.replicate 20 7⟩ [] :=
  (handshake_no_content_validation (19 :: List.replicate 67 7)
    (by decide) (by decide)).trans (by decide)
